import Mathlib

/-!
Shallow embedding of the TestsLoader quiz application (src/src/App.jsx):
the question-bank block parser, per-run question preparation (option
shuffling and letter mappings), question selection (random and
sequential), and the answer-submission state machine with scoring and
the wrong-answer log.  Randomness is modelled by an explicit stream of
draws `Nat → Nat`; the draw for step `i` is reduced modulo `i + 1`,
which ranges over exactly the values `Math.floor(Math.random()*(i+1))`
can take.  JavaScript strings are `String`, objects used as
letter-keyed maps are association lists preserving insertion order.
-/

namespace Quiz

/-- JS whitespace class `\s` (the characters matched by the regexes'
whitespace class and by `String.prototype.trim`). -/
def isJsWhitespace (c : Char) : Bool :=
  c = ' ' || c = '\t' || c = '\n' || c = '\r' || c = '\x0b' || c = '\x0c' ||
  c = '\u00a0' || c = '\u1680' || ('\u2000' ≤ c && c ≤ '\u200a') ||
  c = '\u2028' || c = '\u2029' || c = '\u202f' || c = '\u205f' ||
  c = '\u3000' || c = '\ufeff'

/-- JS line terminators, which `.` in a regex without the `s` flag never matches. -/
def isLineTerm (c : Char) : Bool :=
  c = '\n' || c = '\r' || c = '\u2028' || c = '\u2029'

/-- Decimal digit, the regex class `\d`. -/
def isDigitChar (c : Char) : Bool :=
  '0' ≤ c && c ≤ '9'

/-- The separator class `[.,、]` used after a question number or option letter. -/
def isSepChar (c : Char) : Bool :=
  c = '.' || c = ',' || c = '、'

/-- The class `[A-F]` under the `i` flag: an option letter in either case. -/
def isAnswerLetterChar (c : Char) : Bool :=
  ('A' ≤ c && c ≤ 'F') || ('a' ≤ c && c ≤ 'f')

/-- The class `[:\s]` separating the word Answer from the captured letters. -/
def isAnswerSepChar (c : Char) : Bool :=
  c = ':' || isJsWhitespace c

/-- `String.prototype.trim`: strip JS whitespace from both ends (char-list level). -/
def jsTrim (s : List Char) : List Char :=
  ((s.dropWhile isJsWhitespace).reverse.dropWhile isJsWhitespace).reverse

/-- App.jsx `normalizeText`: replace non-breaking spaces by plain spaces, then trim. -/
def normalizeText (s : String) : String :=
  String.mk (jsTrim (s.data.map fun c => if c = '\u00a0' then ' ' else c))

/-- `Number` applied to a captured string of decimal digits. -/
def digitsToNat (ds : List Char) : Nat :=
  ds.foldl (fun acc c => acc * 10 + (c.toNat - '0'.toNat)) 0

/-- Matching `QUESTION_RE = /^(\d+)[.,、]\s*(.*)$/` against a whole string:
on success returns the numeric value of the digit group and the second
captured group.  Greedy `\s*` strips the maximal whitespace run, and the
match fails if the remainder still contains a line terminator, which `.`
cannot consume. -/
def questionMatch (s : List Char) : Option (Nat × List Char) :=
  let digits := s.takeWhile isDigitChar
  match s.dropWhile isDigitChar with
  | c :: t =>
    if digits ≠ [] ∧ isSepChar c then
      let r := t.dropWhile isJsWhitespace
      if r.any isLineTerm then none else some (digitsToNat digits, r)
    else none
  | [] => none

/-- Matching `OPTION_RE = /^([A-F])[.,、]\s*(.*)$/i`: returns the raw captured
letter (upper-cased later by the parser) and the rest-of-line group. -/
def optionMatch (s : List Char) : Option (Char × List Char) :=
  match s with
  | c :: c2 :: t =>
    if isAnswerLetterChar c ∧ isSepChar c2 then
      let r := t.dropWhile isJsWhitespace
      if r.any isLineTerm then none else some (c, r)
    else none
  | _ => none

/-- Matching `ANSWER_RE = /^Answer[:\s]+([A-F]+)$/i`: the case-insensitive
word Answer, a nonempty run of `[:\s]`, then the captured letters which
must run to the end of the string.  The two character classes are
disjoint, so the greedy split is the unique one. -/
def answerMatch (s : List Char) : Option (List Char) :=
  if (s.take 6).map Char.toLower = "answer".data then
    let t := s.drop 6
    let sep := t.takeWhile isAnswerSepChar
    let letters := t.dropWhile isAnswerSepChar
    if sep ≠ [] ∧ letters ≠ [] ∧ letters.all isAnswerLetterChar then
      some letters
    else none
  else none

/-- One content block given to the parser: normalized text plus the image
references attached to that block. -/
structure Block where
  text : String
  images : List String
deriving DecidableEq, Repr

/-- A parsed question record (App.jsx lines 116–122).  `options` is the
letter-keyed object as an insertion-ordered association list. -/
structure Question where
  number : Nat
  text : String
  options : List (Char × String)
  answer : String
  images : List String
deriving DecidableEq, Repr

/-- `sortLetters` (App.jsx lines 178–180): JS default array sort on
single-character strings, i.e. the stable sort by code point (stable
sorting has a unique result, here computed by insertion sort). -/
def sortLetters (l : List Char) : List Char :=
  List.insertionSort (fun a b => a ≤ b) l

/-- `appendUniqueImages`: push each truthy source not already present,
preserving first-seen order. -/
def appendUniqueImages (target : List String) (images : List String) : List String :=
  images.foldl (fun acc src => if src ≠ "" ∧ ¬ acc.contains src then acc ++ [src] else acc)
    target

/-- Assignment `obj[k] = v` on a letter-keyed JS object: overwrite in place
if the key exists, otherwise append the new key at the end. -/
def objSet (l : List (Char × String)) (k : Char) (v : String) : List (Char × String) :=
  match l with
  | [] => [(k, v)]
  | p :: rest => if p.1 = k then (k, v) :: rest else p :: objSet rest k v

/-- The parser's mutable accumulator (App.jsx lines 108–112). -/
structure PState where
  currentText : String
  currentOptions : List (Char × String)
  currentImages : List String
  currentNumber : Option Nat
  currentAnswer : Option String
deriving DecidableEq, Repr

def initPState : PState :=
  { currentText := "", currentOptions := [], currentImages := [],
    currentNumber := none, currentAnswer := none }

/-- `flushCurrentQuestion` (App.jsx lines 114–124): emit the accumulated
question only when a number was seen, at least one option exists and the
captured answer is a truthy (nonempty) string; the emitted answer is
upper-cased and its letters sorted. -/
def flushCurrentQuestion (st : PState) : List Question :=
  match st.currentNumber, st.currentAnswer with
  | some n, some a =>
    if 0 < st.currentOptions.length ∧ a ≠ "" then
      [{ number := n,
         text := String.mk (jsTrim st.currentText.data),
         options := st.currentOptions,
         answer := String.mk (sortLetters (a.data.map Char.toUpper)),
         images := st.currentImages }]
    else []
  | _, _ => []

/-- One iteration of the parser's block loop (App.jsx lines 126–162),
threading the emitted questions and the accumulator. -/
def applyBlock (qs : List Question) (st : PState) (b : Block) : List Question × PState :=
  let text := normalizeText b.text
  let images := b.images
  match questionMatch text.data with
  | some (num, rest) =>
      (qs ++ flushCurrentQuestion st,
       { currentNumber := some num,
         currentText := String.mk rest,
         currentOptions := [],
         currentImages := appendUniqueImages [] images,
         currentAnswer := none })
  | none =>
    match optionMatch text.data with
    | some (letter, rest) =>
        (qs, { st with
                 currentOptions := objSet st.currentOptions letter.toUpper (String.mk rest),
                 currentImages := appendUniqueImages st.currentImages images })
    | none =>
      match answerMatch text.data with
      | some letters =>
          (qs, { st with currentAnswer := some (String.mk (letters.map Char.toUpper)) })
      | none =>
        match st.currentNumber with
        | none => (qs, st)
        | some _ =>
          let st1 := { st with currentImages := appendUniqueImages st.currentImages images }
          if text ≠ "" ∧ st.currentOptions = [] then
            (qs, { st1 with currentText :=
                     if st.currentText = "" then text else st.currentText ++ "\n" ++ text })
          else (qs, st1)

/-- `parseQuestionsFromHtml` restricted to its parsing core (App.jsx lines
104–167): a left-to-right scan over the already-extracted block sequence,
with a final flush after the last block. -/
def parseQuestionsFromBlocks (blocks : List Block) : List Question :=
  let r := blocks.foldl (fun acc b => applyBlock acc.1 acc.2 b) ([], initPState)
  r.1 ++ flushCurrentQuestion r.2

/-- `clamp` (App.jsx lines 29–31): `Math.min(max, Math.max(min, num))`,
keeping the source's argument order. -/
def clamp (num lo hi : Nat) : Nat :=
  Nat.min hi (Nat.max lo num)

/-- The JS idiom `Number(x) || 1`, turning a zero count into 1. -/
def jsOrOne (n : Nat) : Nat :=
  if n = 0 then 1 else n

/-- One swap `[copy[i], copy[j]] = [copy[j], copy[i]]` on a list; out-of-range
indices (never produced by the shuffle loop) leave the list unchanged. -/
def listSwap (l : List α) (i j : Nat) : List α :=
  match l[i]?, l[j]? with
  | some a, some b => (l.set i b).set j a
  | _, _ => l

/-- The Fisher–Yates loop of `shuffleArray`, counting `i` down to 1; the
draw for step `i` is reduced mod `i + 1`, the range of
`Math.floor(Math.random() * (i + 1))`. -/
def fyLoop (draws : Nat → Nat) : Nat → List α → List α
  | 0, copy => copy
  | i + 1, copy => fyLoop draws i (listSwap copy (i + 1) (draws (i + 1) % (i + 2)))

/-- `shuffleArray` (App.jsx lines 169–176) with the random source made an
explicit draw stream. -/
def shuffleArray (draws : Nat → Nat) (array : List α) : List α :=
  fyLoop draws (array.length - 1) array

/-- `sampleQuestions` (App.jsx lines 212–214): shuffle, then take a prefix. -/
def sampleQuestions (draws : Nat → Nat) (questions : List Question) (count : Nat) :
    List Question :=
  (shuffleArray draws questions).take count

/-- The fixed new-letter alphabet `LETTERS` (App.jsx line 10). -/
def LETTERS : List Char := ['A', 'B', 'C', 'D', 'E', 'F']

/-- A question prepared for one run (App.jsx lines 202–209). -/
structure PreparedQuestion extends Question where
  isMultipleChoice : Bool
  shuffledOptions : List (Char × String)
  optionMapping : List (Char × Char)
  reverseMapping : List (Char × Char)
  shuffledAnswer : String
deriving DecidableEq, Repr

/-- `prepareQuestion` (App.jsx lines 182–210): shuffle the option entries,
assign fresh letters in shuffled order, build the two letter mappings, and
translate the original answer through the reverse mapping, dropping
letters with no image under it (`.filter(Boolean)`), then re-sort. -/
def prepareQuestion (draws : Nat → Nat) (question : Question) : PreparedQuestion :=
  let shuffledItems := shuffleArray draws question.options
  let newLetters := LETTERS.take shuffledItems.length
  let pairs := shuffledItems.zip newLetters
  { toQuestion := question
    isMultipleChoice := decide (1 < question.answer.length)
    shuffledOptions := pairs.map fun p => (p.2, p.1.2)
    optionMapping := pairs.map fun p => (p.2, p.1.1)
    reverseMapping := pairs.map fun p => (p.1.1, p.2)
    shuffledAnswer :=
      String.mk (sortLetters
        (question.answer.data.filterMap fun letter => List.lookup letter
          (pairs.map fun p => (p.1.1, p.2)))) }

/-- `sortedQuestions` (App.jsx line 488): the bank sorted ascending by
original number; JS sort is stable, so the result is the unique stable
ascending ordering, computed by insertion sort. -/
def sortedQuestions (questions : List Question) : List Question :=
  List.insertionSort (fun a b => a.number ≤ b.number) questions

/-- `maxQuestionNumber` (App.jsx line 489): number of the last sorted
question, or 0 for an empty bank. -/
def maxQuestionNumber (questions : List Question) : Nat :=
  match (sortedQuestions questions).getLast? with
  | some q => q.number
  | none => 0

/-- The `startIdx` scan shared by `startQuiz` and
`computeSequentialMaxCount`: first index whose number reaches the start,
defaulting to 0 when none does. -/
def sequentialStartIdx (sorted : List Question) (startNumber : Nat) : Nat :=
  match sorted.findIdx? (fun q => decide (startNumber ≤ q.number)) with
  | some i => i
  | none => 0

/-- `computeSequentialMaxCount` (App.jsx lines 216–230). -/
def computeSequentialMaxCount (sorted : List Question) (startNumber : Nat) : Nat :=
  if sorted.length = 0 then 1
  else Nat.max 1 (sorted.length - sequentialStartIdx sorted startNumber)

/-- The sequential branch of `startQuiz` (App.jsx lines 642–662): clamp the
start number, locate the start index, clamp the requested count to the
remaining questions, and slice.  An empty bank returns no selection, as
`startQuiz` returns before selecting. -/
def startQuizSequential (questions : List Question) (numQuestions startQuestion : Nat) :
    List Question :=
  if questions.length = 0 then []
  else
    let sorted := sortedQuestions questions
    let start := clamp (jsOrOne startQuestion) 1 (Nat.max 1 (maxQuestionNumber questions))
    let startIdx := sequentialStartIdx sorted start
    let maxCount := Nat.max 1 (sorted.length - startIdx)
    let count := clamp (jsOrOne numQuestions) 1 maxCount
    ((sorted.drop startIdx).take count)

/-- The random branch of `startQuiz` (App.jsx lines 663–666). -/
def startQuizRandom (draws : Nat → Nat) (questions : List Question) (numQuestions : Nat) :
    List Question :=
  if questions.length = 0 then []
  else sampleQuestions draws questions (clamp (jsOrOne numQuestions) 1 questions.length)

/-- An answer record stored per question index (App.jsx lines 728–733). -/
structure AnswerRecord where
  selected : List Char
  isCorrect : Bool
  userAnswerShuffled : String
  userAnswerOriginal : String
deriving DecidableEq, Repr

/-- A persisted wrong-answer entry (App.jsx lines 531–539). -/
structure WrongAnswerEntry where
  original_number : Nat
  question_text : String
  options : List (Char × String)
  correct_answer : String
  user_answer : String
  is_multiple_choice : Bool
  timestamp : String
deriving DecidableEq, Repr

/-- Insert-or-replace in the wrong-answer list (App.jsx lines 541–549):
replace in place at the index found by `findIndex`, else append. -/
def upsertRecord (record : WrongAnswerEntry) (prev : List WrongAnswerEntry) :
    List WrongAnswerEntry :=
  match prev.findIdx? (fun item => item.original_number == record.original_number) with
  | some index => prev.set index record
  | none => prev ++ [record]

/-- `upsertWrongAnswer` (App.jsx lines 530–550); the timestamp string is
passed in for `new Date().toISOString()`. -/
def upsertWrongAnswer (question : PreparedQuestion) (userAnswerOriginal now : String)
    (prev : List WrongAnswerEntry) : List WrongAnswerEntry :=
  upsertRecord
    { original_number := question.number,
      question_text := question.text,
      options := question.options,
      correct_answer := question.answer,
      user_answer := userAnswerOriginal,
      is_multiple_choice := question.isMultipleChoice,
      timestamp := now }
    prev

/-- Generic JS object update `{...prev, [k]: v}` on an association list:
overwrite in place, else append. -/
def assocSet [BEq α] (l : List (α × β)) (k : α) (v : β) : List (α × β) :=
  match l with
  | [] => [(k, v)]
  | p :: rest => if p.1 == k then (k, v) :: rest else p :: assocSet rest k v

/-- The per-run quiz component state that the submission state machine
reads and writes. -/
structure RunState where
  quizQuestions : List PreparedQuestion
  currentIndex : Nat
  score : Nat
  answersState : List (Nat × AnswerRecord)
  draftSelections : List (Nat × List Char)
  warning : String
  wrongAnswers : List WrongAnswerEntry
  showFinalModal : Bool
deriving DecidableEq, Repr

/-- `resetRunState` (App.jsx lines 521–528). -/
def resetRunState (s : RunState) : RunState :=
  { s with currentIndex := 0, score := 0, answersState := [], draftSelections := [],
           warning := "", showFinalModal := false }

/-- The tail of `startQuiz` (App.jsx lines 668–671): install the prepared
questions, then reset the run state. -/
def startRun (prepared : List PreparedQuestion) (s : RunState) : RunState :=
  resetRunState { s with quizQuestions := prepared }

/-- The warning shown for an empty selection (App.jsx line 710). -/
def selectEmptyWarning : String := "请先选择答案。"

/-- The warning shown for a multi-choice count mismatch (App.jsx line 715),
as the template literal's concatenation. -/
def multiCountWarning (need got : Nat) : String :=
  "这是多选题，需要选择 " ++ toString need ++ " 个答案，你选择了 " ++ toString got ++ " 个。"

/-- `submitAnswer` (App.jsx lines 702–752) as a state transition; `now`
stands for `new Date().toISOString()`.  The scheduled auto-advance timer
is modelled as the separate transition `autoAdvance`. -/
def submitAnswer (now : String) (s : RunState) : RunState :=
  match s.quizQuestions[s.currentIndex]? with
  | none => s
  | some currentQuestion =>
    match List.lookup s.currentIndex s.answersState with
    | some _ => s
    | none =>
      let selected := sortLetters ((List.lookup s.currentIndex s.draftSelections).getD [])
      if selected.length = 0 then
        { s with warning := selectEmptyWarning }
      else if currentQuestion.isMultipleChoice ∧ selected.length ≠ currentQuestion.answer.length then
        { s with warning := multiCountWarning currentQuestion.answer.length selected.length }
      else
        let userAnswerShuffled := String.mk selected
        let userAnswerOriginal := String.mk (sortLetters
          (selected.map fun letter =>
            (List.lookup letter currentQuestion.optionMapping).getD letter))
        let isCorrect := userAnswerShuffled == currentQuestion.shuffledAnswer
        let s1 := { s with
          answersState := assocSet s.answersState s.currentIndex
            { selected := selected, isCorrect := isCorrect,
              userAnswerShuffled := userAnswerShuffled,
              userAnswerOriginal := userAnswerOriginal } }
        let s2 :=
          if isCorrect then { s1 with score := s1.score + 1 }
          else { s1 with wrongAnswers :=
                   upsertWrongAnswer currentQuestion userAnswerOriginal now s1.wrongAnswers }
        { s2 with warning := "" }

/-- `changeOption` (App.jsx lines 674–700). -/
def changeOption (letter : Char) (checked : Bool) (s : RunState) : RunState :=
  match s.quizQuestions[s.currentIndex]? with
  | none => s
  | some currentQuestion =>
    match List.lookup s.currentIndex s.answersState with
    | some _ => s
    | none =>
      let existing := (List.lookup s.currentIndex s.draftSelections).getD []
      let next :=
        if currentQuestion.isMultipleChoice then
          if checked then sortLetters ((existing ++ [letter]).eraseDups)
          else existing.filter fun item => item ≠ letter
        else
          if checked then [letter] else []
      { s with warning := "",
               draftSelections := assocSet s.draftSelections s.currentIndex next }

/-- The previous-question button (App.jsx lines 885–888). -/
def navPrev (s : RunState) : RunState :=
  { s with currentIndex := s.currentIndex - 1, warning := "" }

/-- The next-question button (App.jsx lines 901–903). -/
def navNext (s : RunState) : RunState :=
  { s with currentIndex := Nat.min (s.currentIndex + 1) (s.quizQuestions.length - 1),
           warning := "" }

/-- The fired auto-advance timer callback (App.jsx lines 748–750). -/
def autoAdvance (s : RunState) : RunState :=
  { s with currentIndex := Nat.min (s.currentIndex + 1) (s.quizQuestions.length - 1) }

/-- Number of stored answer records marked correct. -/
def countCorrect (answers : List (Nat × AnswerRecord)) : Nat :=
  (answers.filter fun p => p.2.isCorrect).length

/-- States a run can be in: freshly started by `startQuiz`, then closed
under the user-driven transitions of the component. -/
inductive ReachableRun : RunState → Prop
  | start (prepared : List PreparedQuestion) (s : RunState) :
      ReachableRun (startRun prepared s)
  | submit (now : String) (s : RunState) :
      ReachableRun s → ReachableRun (submitAnswer now s)
  | change (letter : Char) (checked : Bool) (s : RunState) :
      ReachableRun s → ReachableRun (changeOption letter checked s)
  | prev (s : RunState) : ReachableRun s → ReachableRun (navPrev s)
  | next (s : RunState) : ReachableRun s → ReachableRun (navNext s)
  | auto (s : RunState) : ReachableRun s → ReachableRun (autoAdvance s)

/-! Helper lemmas about the Fisher–Yates swap loop. -/

theorem eq_take_cons_drop {l : List α} {m : Nat} {b : α} (h : l[m]? = some b) :
    l = l.take m ++ b :: l.drop (m + 1) := by
  have hm : m < l.length := by
    rcases Nat.lt_or_ge m l.length with h' | h'
    · exact h'
    · rw [List.getElem?_eq_none h'] at h; cases h
  have hb : l[m] = b := by
    rw [List.getElem?_eq_getElem hm] at h
    exact Option.some.inj h
  calc l = l.take m ++ l.drop m := (List.take_append_drop m l).symm
    _ = l.take m ++ b :: l.drop (m + 1) := by
        rw [List.drop_eq_getElem_cons hm, hb]

theorem cons_set_perm {t : List α} {m : Nat} {b : α} (h : t[m]? = some b) (x : α) :
    List.Perm (b :: t.set m x) (x :: t) := by
  have hm : m < t.length := by
    rcases Nat.lt_or_ge m t.length with h' | h'
    · exact h'
    · rw [List.getElem?_eq_none h'] at h; cases h
  rw [List.set_eq_take_append_cons_drop, if_pos hm]
  conv_rhs => rw [eq_take_cons_drop h]
  refine List.Perm.trans (List.Perm.cons b List.perm_middle) ?_
  refine List.Perm.trans (List.Perm.swap x b _) ?_
  exact List.Perm.cons x List.perm_middle.symm

theorem set_set_perm (l : List α) : ∀ (i j : Nat) (a b : α),
    l[i]? = some a → l[j]? = some b → List.Perm ((l.set i b).set j a) l := by
  induction l with
  | nil => intro i j a b h1 _; simp at h1
  | cons x t ih =>
    intro i j a b h1 h2
    match i, j with
    | 0, 0 =>
      simp only [List.getElem?_cons_zero, Option.some.injEq] at h1 h2
      subst h1; subst h2
      simp
    | 0, m + 1 =>
      simp only [List.getElem?_cons_zero, Option.some.injEq] at h1
      simp only [List.getElem?_cons_succ] at h2
      subst h1
      simpa using cons_set_perm h2 x
    | k + 1, 0 =>
      simp only [List.getElem?_cons_zero, Option.some.injEq] at h2
      simp only [List.getElem?_cons_succ] at h1
      subst h2
      simpa using cons_set_perm h1 x
    | k + 1, m + 1 =>
      simp only [List.getElem?_cons_succ] at h1 h2
      simpa using List.Perm.cons x (ih k m a b h1 h2)

theorem listSwap_perm (l : List α) (i j : Nat) : List.Perm (listSwap l i j) l := by
  unfold listSwap
  cases h1 : l[i]? with
  | none => exact List.Perm.refl l
  | some a =>
    cases h2 : l[j]? with
    | none => exact List.Perm.refl l
    | some b => exact set_set_perm l i j a b h1 h2

theorem fyLoop_perm (draws : Nat → Nat) : ∀ (n : Nat) (l : List α),
    List.Perm (fyLoop draws n l) l := by
  intro n
  induction n with
  | zero => intro l; exact List.Perm.refl l
  | succ n ih =>
    intro l
    exact List.Perm.trans (ih _) (listSwap_perm l (n + 1) (draws (n + 1) % (n + 2)))

theorem shuffleArray_perm (draws : Nat → Nat) (l : List α) :
    List.Perm (shuffleArray draws l) l :=
  fyLoop_perm draws (l.length - 1) l

/-! Helper lemmas about association-list lookups and the letter mappings
built by `prepareQuestion`. -/

theorem lookup_cons_ne [BEq α] [LawfulBEq α] {k a : α} {b : β} {es : List (α × β)}
    (h : a ≠ k) : List.lookup a ((k, b) :: es) = List.lookup a es := by
  rw [List.lookup_cons]
  have hb : (a == k) = false := beq_eq_false_iff_ne.mpr h
  rw [hb]

theorem lookup_eq_none_of_not_mem_keys [BEq α] [LawfulBEq α] {l : List (α × β)} {k : α}
    (h : k ∉ l.map Prod.fst) : List.lookup k l = none := by
  rw [List.lookup_eq_none_iff]
  intro p hp
  simp only [bne_iff_ne, ne_eq]
  intro hk
  exact h (hk ▸ List.mem_map_of_mem Prod.fst hp)

theorem zip_map_new_orig (items : List (α × β)) (news : List γ) :
    ((items.zip news).map fun p => (p.2, p.1.1)) = news.zip (items.map Prod.fst) := by
  induction items generalizing news with
  | nil => simp
  | cons it t ih =>
    cases news with
    | nil => simp
    | cons nl ns => simp [ih]

theorem zip_map_orig_new (items : List (α × β)) (news : List γ) :
    ((items.zip news).map fun p => (p.1.1, p.2)) = (items.map Prod.fst).zip news := by
  induction items generalizing news with
  | nil => simp
  | cons it t ih =>
    cases news with
    | nil => simp
    | cons nl ns => simp [ih]

theorem zip_map_keys_eq_snd (items : List (α × β)) (news : List γ) :
    (((items.zip news).map fun p => (p.2, p.1.2)).map Prod.fst)
      = (items.zip news).map Prod.snd := by
  induction items generalizing news with
  | nil => simp
  | cons it t ih =>
    cases news with
    | nil => simp
    | cons nl ns => simp [ih]

theorem lookup_zip_mem : ∀ {as bs : List Char} {c o : Char},
    List.lookup c (as.zip bs) = some o → o ∈ bs := by
  intro as
  induction as with
  | nil => intro bs c o h; simp at h
  | cons a t ih =>
    intro bs c o h
    cases bs with
    | nil => simp at h
    | cons b bs' =>
      rw [List.zip_cons_cons, List.lookup_cons] at h
      cases hbe : (c == a) with
      | true =>
        rw [hbe] at h
        simp only [Option.some.injEq] at h
        exact h ▸ List.mem_cons_self b bs'
      | false =>
        rw [hbe] at h
        exact List.mem_cons_of_mem b (ih h)

theorem lookup_zip_inverse : ∀ (as bs : List Char), as.Nodup → bs.Nodup →
    as.length = bs.length → ∀ c ∈ as,
    ∃ o, List.lookup c (as.zip bs) = some o ∧ List.lookup o (bs.zip as) = some c := by
  intro as
  induction as with
  | nil => intro bs _ _ _ c hc; cases hc
  | cons a t ih =>
    intro bs hna hnb hlen c hc
    cases bs with
    | nil => cases hlen
    | cons b bs' =>
      simp only [List.length_cons, Nat.succ.injEq] at hlen
      rw [List.nodup_cons] at hna hnb
      rcases List.mem_cons.mp hc with rfl | hct
      · exact ⟨b, by simp [List.zip_cons_cons], by simp [List.zip_cons_cons]⟩
      · obtain ⟨o, h1, h2⟩ := ih bs' hna.2 hnb.2 hlen c hct
        have hca : c ≠ a := fun heq => hna.1 (heq ▸ hct)
        have hob : o ≠ b := fun heq => hnb.1 (heq ▸ lookup_zip_mem h1)
        refine ⟨o, ?_, ?_⟩
        · rw [List.zip_cons_cons, lookup_cons_ne hca]; exact h1
        · rw [List.zip_cons_cons, lookup_cons_ne hob]; exact h2

theorem assocSet_eq_append [BEq α] [LawfulBEq α] {l : List (α × β)} {k : α} (v : β)
    (h : List.lookup k l = none) : assocSet l k v = l ++ [(k, v)] := by
  induction l with
  | nil => rfl
  | cons p t ih =>
    obtain ⟨k0, v0⟩ := p
    rw [List.lookup_cons] at h
    cases hbe : (k == k0) with
    | true => rw [hbe] at h; cases h
    | false =>
      rw [hbe] at h
      have hk : (k0 == k) = false := by
        rw [beq_eq_false_iff_ne] at hbe ⊢
        exact fun heq => hbe heq.symm
      simp only [assocSet, hk, Bool.false_eq_true, if_false, List.cons_append,
        List.cons.injEq, true_and]
      exact ih h

theorem lookup_assocSet_self [BEq α] [LawfulBEq α] (l : List (α × β)) (k : α) (v : β) :
    List.lookup k (assocSet l k v) = some v := by
  induction l with
  | nil => simp [assocSet]
  | cons p t ih =>
    obtain ⟨k0, v0⟩ := p
    by_cases hk : k0 = k
    · subst hk; simp [assocSet]
    · have hb : (k0 == k) = false := beq_eq_false_iff_ne.mpr hk
      simp only [assocSet, hb, Bool.false_eq_true, if_false]
      rw [lookup_cons_ne fun heq => hk heq.symm]
      exact ih

theorem length_filterMap_lt {f : α → Option β} {l : List α} {c : α}
    (hc : c ∈ l) (hf : f c = none) : (l.filterMap f).length < l.length := by
  induction l with
  | nil => cases hc
  | cons x t ih =>
    rcases List.mem_cons.mp hc with rfl | hct
    · rw [List.filterMap_cons, hf]
      have := List.length_filterMap_le f t
      simp only [List.length_cons]
      omega
    · cases hx : f x with
      | none =>
        rw [List.filterMap_cons, hx]
        have := ih hct
        simp only [List.length_cons]
        omega
      | some y =>
        rw [List.filterMap_cons, hx]
        have := ih hct
        simp only [List.length_cons]
        omega

theorem multiCountWarning_ne_empty (need got : Nat) : multiCountWarning need got ≠ "" := by
  intro h
  have hl : (multiCountWarning need got).length = 0 := by rw [h]; rfl
  unfold multiCountWarning at hl
  simp only [String.length_append] at hl
  have h1 : ("这是多选题，需要选择 " : String).length = 11 := by decide
  omega

/-! Helper lemmas about the wrong-answer upsert. -/

theorem set_getElem?_self {l : List α} : ∀ {i : Nat} {a : α},
    l[i]? = some a → l.set i a = l := by
  induction l with
  | nil => intro i a h; simp at h
  | cons x t ih =>
    intro i a h
    match i with
    | 0 =>
      simp only [List.getElem?_cons_zero, Option.some.injEq] at h
      rw [List.set_cons_zero, h]
    | k + 1 =>
      simp only [List.getElem?_cons_succ] at h
      rw [List.set_cons_succ, ih h]

/-- A recursive reformulation of `upsertRecord`, convenient for induction. -/
def upsertGo (record : WrongAnswerEntry) : List WrongAnswerEntry → List WrongAnswerEntry
  | [] => [record]
  | e :: t =>
    if e.original_number == record.original_number then record :: t
    else e :: upsertGo record t

theorem upsertRecord_eq_go (r : WrongAnswerEntry) :
    ∀ l, upsertRecord r l = upsertGo r l := by
  intro l
  induction l with
  | nil => rfl
  | cons e t ih =>
    rw [upsertGo, ← ih]
    unfold upsertRecord
    cases hbe : (e.original_number == r.original_number) with
    | true => simp [hbe]
    | false =>
      cases hfi : t.findIdx? (fun item => item.original_number == r.original_number) with
      | none => simp [hbe, List.findIdx?_succ, hfi]
      | some i => simp [hbe, List.findIdx?_succ, hfi]

/-- First stored record carrying a given original number. -/
def findByNumber (l : List WrongAnswerEntry) (n : Nat) : Option WrongAnswerEntry :=
  l.find? fun e => e.original_number == n

/-- Latest record with a given original number in a submission history. -/
def latestRecord (records : List WrongAnswerEntry) (n : Nat) : Option WrongAnswerEntry :=
  records.foldl (fun acc r => if r.original_number == n then some r else acc) none

/-- The whole history of wrong-answer upserts, starting from the empty log. -/
def applyUpserts (records : List WrongAnswerEntry) : List WrongAnswerEntry :=
  records.foldl (fun acc r => upsertRecord r acc) []

theorem findByNumber_upsert (r : WrongAnswerEntry) (l : List WrongAnswerEntry) (n : Nat) :
    findByNumber (upsertRecord r l) n
      = if r.original_number = n then some r else findByNumber l n := by
  rw [upsertRecord_eq_go]
  induction l with
  | nil =>
    unfold upsertGo findByNumber
    by_cases hrn : r.original_number = n <;> simp [hrn]
  | cons e t ih =>
    unfold upsertGo
    unfold findByNumber at ih ⊢
    by_cases hbe : e.original_number = r.original_number
    · by_cases hrn : r.original_number = n
      · simp [hbe, hrn]
      · have hen : ¬ e.original_number = n := fun h => hrn (hbe ▸ h)
        simp [hbe, hrn, hen]
    · by_cases hen : e.original_number = n
      · have hrn : ¬ r.original_number = n := fun h => hbe (hen ▸ h.symm)
        have hnr : ¬ n = r.original_number := fun h => hrn h.symm
        simp [hbe, hen, hrn, hnr]
      · by_cases hrn : r.original_number = n <;> simp [hbe, hen, hrn, ih]

theorem map_number_upsert (r : WrongAnswerEntry) (l : List WrongAnswerEntry) :
    (upsertRecord r l).map WrongAnswerEntry.original_number
      = if r.original_number ∈ l.map WrongAnswerEntry.original_number
        then l.map WrongAnswerEntry.original_number
        else l.map WrongAnswerEntry.original_number ++ [r.original_number] := by
  rw [upsertRecord_eq_go]
  induction l with
  | nil => simp [upsertGo]
  | cons e t ih =>
    unfold upsertGo
    cases hbe : (e.original_number == r.original_number) with
    | true =>
      rw [beq_iff_eq] at hbe
      have hmem : r.original_number ∈ (e :: t).map WrongAnswerEntry.original_number := by
        simp [hbe]
      simp [hbe, hmem]
    | false =>
      rw [beq_eq_false_iff_ne] at hbe
      simp only [Bool.false_eq_true, if_false, List.map_cons, ih]
      by_cases hmem : r.original_number ∈ t.map WrongAnswerEntry.original_number
      · rw [if_pos hmem, if_pos (List.mem_cons_of_mem _ hmem)]
      · rw [if_neg hmem,
          if_neg (by
            intro hc
            rcases List.mem_cons.mp hc with hc1 | hc2
            · exact hbe hc1.symm
            · exact hmem hc2)]
        rfl

theorem nodup_upsert {r : WrongAnswerEntry} {l : List WrongAnswerEntry}
    (h : (l.map WrongAnswerEntry.original_number).Nodup) :
    ((upsertRecord r l).map WrongAnswerEntry.original_number).Nodup := by
  rw [map_number_upsert]
  by_cases hmem : r.original_number ∈ l.map WrongAnswerEntry.original_number
  · rwa [if_pos hmem]
  · rw [if_neg hmem]
    rw [List.nodup_append]
    exact ⟨h, List.nodup_singleton _, by
      intro a ha hb
      rcases List.mem_singleton.mp hb with rfl
      exact hmem ha⟩

theorem foldl_upsert_nodup : ∀ (rs : List WrongAnswerEntry) (acc : List WrongAnswerEntry),
    (acc.map WrongAnswerEntry.original_number).Nodup →
    (((rs.foldl (fun a r => upsertRecord r a) acc)).map WrongAnswerEntry.original_number).Nodup := by
  intro rs
  induction rs with
  | nil => intro acc h; exact h
  | cons r rs' ih =>
    intro acc h
    exact ih (upsertRecord r acc) (nodup_upsert h)

theorem foldl_upsert_find : ∀ (rs : List WrongAnswerEntry) (acc : List WrongAnswerEntry) (n : Nat),
    findByNumber (rs.foldl (fun a r => upsertRecord r a) acc) n
      = rs.foldl (fun (o : Option WrongAnswerEntry) r =>
          if r.original_number == n then some r else o) (findByNumber acc n) := by
  intro rs
  induction rs with
  | nil => intro acc n; rfl
  | cons r rs' ih =>
    intro acc n
    rw [List.foldl_cons, List.foldl_cons, ih, findByNumber_upsert]
    by_cases hrn : r.original_number = n
    · rw [if_pos hrn, if_pos (beq_iff_eq.mpr hrn)]
    · rw [if_neg hrn, if_neg (by
        intro hc
        exact hrn (beq_iff_eq.mp hc))]

/-! Helper lemmas about the parser invariant. -/

theorem flush_sound {st : PState} {q : Question} (hq : q ∈ flushCurrentQuestion st) :
    0 < q.options.length ∧ q.answer ≠ "" := by
  unfold flushCurrentQuestion at hq
  split at hq
  · rename_i n a hn ha
    split at hq
    · rename_i hcond
      rcases List.mem_singleton.mp hq with rfl
      refine ⟨hcond.1, ?_⟩
      intro hemp
      have hdata : (sortLetters (a.data.map Char.toUpper)) = [] := by
        have := congrArg String.data hemp
        simpa using this
      have hlen : (sortLetters (a.data.map Char.toUpper)).length = a.data.length := by
        unfold sortLetters
        rw [List.length_insertionSort, List.length_map]
      rw [hdata] at hlen
      have hnil : a.data = [] := List.length_eq_zero.mp hlen.symm
      exact hcond.2 (String.ext hnil)
    · cases hq
  · cases hq

theorem applyBlock_fst {qs : List Question} {st : PState} {b : Block} {q : Question}
    (hq : q ∈ (applyBlock qs st b).1) : q ∈ qs ∨ q ∈ flushCurrentQuestion st := by
  simp only [applyBlock] at hq
  repeat' split at hq
  all_goals
    first
    | exact List.mem_append.mp hq
    | exact Or.inl hq

theorem parse_fold_sound : ∀ (blocks : List Block) (qs : List Question) (st : PState),
    (∀ q ∈ qs, 0 < q.options.length ∧ q.answer ≠ "") →
    ∀ q ∈ (blocks.foldl (fun acc b => applyBlock acc.1 acc.2 b) (qs, st)).1 ++
        flushCurrentQuestion (blocks.foldl (fun acc b => applyBlock acc.1 acc.2 b) (qs, st)).2,
      0 < q.options.length ∧ q.answer ≠ "" := by
  intro blocks
  induction blocks with
  | nil =>
    intro qs st hqs q hq
    rcases List.mem_append.mp hq with h | h
    · exact hqs q h
    · exact flush_sound h
  | cons b bs ih =>
    intro qs st hqs q hq
    rw [List.foldl_cons] at hq
    refine ih (applyBlock qs st b).1 (applyBlock qs st b).2 ?_ q ?_
    · intro q0 hq0
      rcases applyBlock_fst hq0 with h | h
      · exact hqs q0 h
      · exact flush_sound h
    · simpa using hq

theorem clamp_jsOrOne (n m : Nat) : clamp (jsOrOne n) 1 m = Nat.min m (Nat.max 1 n) := by
  unfold clamp jsOrOne
  split
  · rename_i h
    subst h
    rfl
  · rfl

/-! Concrete inputs used by counterexamples and witnesses. -/

/-- A block sequence whose captured answer letter B is not among the
recorded option keys (only A). -/
def answerMismatchBlocks : List Block :=
  [{ text := "1. Q", images := [] }, { text := "A. x", images := [] },
   { text := "Answer: B", images := [] }]

/-- The block sequence of the spec's parsing scenario. -/
def scenarioBlocks : List Block :=
  [{ text := "1. What is 2+2?", images := [] }, { text := "A. 3", images := [] },
   { text := "B. 4", images := [] }, { text := "Answer: B", images := [] }]

/-- The question record the scenario should produce. -/
def scenarioQuestion : Question :=
  { number := 1, text := "What is 2+2?", options := [('A', "3"), ('B', "4")],
    answer := "B", images := [] }

/-- A small two-option single-choice question for run-state witnesses. -/
def sampleQ : Question :=
  { number := 1, text := "q", options := [('A', "x"), ('B', "y")], answer := "A",
    images := [] }

def samplePrepared : PreparedQuestion := prepareQuestion (fun _ => 0) sampleQ

/-- A wrong-answer entry with a given number and user answer. -/
def sampleEntry (n : Nat) (ua : String) : WrongAnswerEntry :=
  { original_number := n, question_text := "q", options := [('A', "x")],
    correct_answer := "A", user_answer := ua, is_multiple_choice := false,
    timestamp := "t" }

/-- C1, counterexample: the parser emits a question whose answer letter is
not a key of its options mapping, so the claimed subset invariant fails on
this block sequence. -/
theorem C1_counterexample :
    ¬ (∀ q ∈ parseQuestionsFromBlocks answerMismatchBlocks,
        ∀ c ∈ q.answer.data, c ∈ q.options.map Prod.fst) := by
  decide

/-- C1 (amended): for every block sequence given to the parser, every
question it emits has at least one option and a non-empty answer.  (The
original claim's final conjunct — answer letters being a subset of the
option keys — is not enforced by the parser, as the counterexample
shows.) -/
theorem C1_parser_flush_guarantees (blocks : List Block) :
    ∀ q ∈ parseQuestionsFromBlocks blocks, 0 < q.options.length ∧ q.answer ≠ "" := by
  intro q hq
  have h0 : ∀ q0 ∈ ([] : List Question), 0 < q0.options.length ∧ q0.answer ≠ "" := by
    intro q0 h
    cases h
  exact parse_fold_sound blocks [] initPState h0 q hq

theorem C1_witness :
    (⟨1, "Q", [('A', "x")], "B", []⟩ : Question) ∈
        parseQuestionsFromBlocks answerMismatchBlocks ∧
    (0 < (⟨1, "Q", [('A', "x")], "B", []⟩ : Question).options.length ∧
      (⟨1, "Q", [('A', "x")], "B", []⟩ : Question).answer ≠ "") :=
  ⟨by decide, C1_parser_flush_guarantees answerMismatchBlocks _ (by decide)⟩

/-- C7: the four-block scenario parses to exactly one question with
number 1, text, options A/B, answer B, and preparation marks it
single-choice for every draw stream. -/
theorem C7_scenario :
    parseQuestionsFromBlocks scenarioBlocks = [scenarioQuestion] ∧
    ∀ draws : Nat → Nat,
      (prepareQuestion draws scenarioQuestion).isMultipleChoice = false := by
  exact ⟨by decide, fun draws => rfl⟩

/-- C5: the wrong-answer log keeps at most one entry per original number:
an upsert preserves distinctness of the numbers, appends a new number at
the end, replaces an existing number in place at its position, and after
any sequence of upserts from the empty log the numbers are pairwise
distinct and looking a number up finds the latest record carrying it. -/
theorem C5_wrong_log_upsert :
    (∀ (r : WrongAnswerEntry) (l : List WrongAnswerEntry),
        (l.map WrongAnswerEntry.original_number).Nodup →
        ((upsertRecord r l).map WrongAnswerEntry.original_number).Nodup) ∧
    (∀ (r : WrongAnswerEntry) (l : List WrongAnswerEntry),
        r.original_number ∉ l.map WrongAnswerEntry.original_number →
        upsertRecord r l = l ++ [r]) ∧
    (∀ (r : WrongAnswerEntry) (l : List WrongAnswerEntry),
        r.original_number ∈ l.map WrongAnswerEntry.original_number →
        ∃ i e, l[i]? = some e ∧ e.original_number = r.original_number ∧
          upsertRecord r l = l.set i r) ∧
    (∀ rs : List WrongAnswerEntry,
        ((applyUpserts rs).map WrongAnswerEntry.original_number).Nodup) ∧
    (∀ (rs : List WrongAnswerEntry) (n : Nat),
        findByNumber (applyUpserts rs) n = latestRecord rs n) := by
  refine ⟨?_, ?_, ?_, ?_, ?_⟩
  · intro r l h
    exact nodup_upsert h
  · intro r l h
    unfold upsertRecord
    rw [List.findIdx?_eq_none_iff.mpr ?_]
    intro x hx
    simp only [Bool.not_eq_true, beq_eq_false_iff_ne, ne_eq]
    intro hc
    exact h (hc ▸ List.mem_map_of_mem WrongAnswerEntry.original_number hx)
  · intro r l h
    obtain ⟨e0, he0, hnum⟩ := List.mem_map.mp h
    have hex : ∃ x ∈ l, (x.original_number == r.original_number) = true :=
      ⟨e0, he0, beq_iff_eq.mpr hnum⟩
    have hfi := List.findIdx?_eq_some_of_exists hex
    obtain ⟨hlt, hp, _⟩ := List.findIdx?_eq_some_iff_getElem.mp hfi
    refine ⟨l.findIdx fun item => item.original_number == r.original_number,
      l[l.findIdx fun item => item.original_number == r.original_number],
      List.getElem?_eq_getElem hlt, beq_iff_eq.mp hp, ?_⟩
    unfold upsertRecord
    rw [hfi]
  · intro rs
    exact foldl_upsert_nodup rs [] (by simp)
  · intro rs n
    rw [applyUpserts, foldl_upsert_find]
    rfl

theorem C5_witness :
    ((upsertRecord (sampleEntry 1 "B") [sampleEntry 1 "A"]).map
        WrongAnswerEntry.original_number).Nodup ∧
    upsertRecord (sampleEntry 2 "B") [sampleEntry 1 "A"]
      = [sampleEntry 1 "A"] ++ [sampleEntry 2 "B"] :=
  ⟨C5_wrong_log_upsert.1 (sampleEntry 1 "B") [sampleEntry 1 "A"] (by decide),
   C5_wrong_log_upsert.2.1 (sampleEntry 2 "B") [sampleEntry 1 "A"] (by decide)⟩

/-- C6: once an answer record exists for the current index, `submitAnswer`
is a complete no-op: the whole run state is returned unchanged. -/
theorem C6_answered_is_terminal (now : String) (s : RunState) (r : AnswerRecord)
    (h : List.lookup s.currentIndex s.answersState = some r) :
    submitAnswer now s = s := by
  unfold submitAnswer
  cases hq : s.quizQuestions[s.currentIndex]? with
  | none => rfl
  | some q => rw [h]

def sampleRecord : AnswerRecord :=
  { selected := ['A'], isCorrect := true,
    userAnswerShuffled := "A", userAnswerOriginal := "A" }

def answeredState : RunState :=
  { quizQuestions := [samplePrepared], currentIndex := 0, score := 1,
    answersState := [(0, sampleRecord)],
    draftSelections := [], warning := "", wrongAnswers := [],
    showFinalModal := false }

theorem C6_witness : submitAnswer "t" answeredState = answeredState :=
  C6_answered_is_terminal "t" answeredState sampleRecord (by rfl)

/-! Projection lemmas exposing the zip structure of the letter mappings. -/

theorem prepare_optionMapping (draws : Nat → Nat) (q : Question) :
    (prepareQuestion draws q).optionMapping
      = (LETTERS.take (shuffleArray draws q.options).length).zip
          ((shuffleArray draws q.options).map Prod.fst) :=
  zip_map_new_orig _ _

theorem prepare_reverseMapping (draws : Nat → Nat) (q : Question) :
    (prepareQuestion draws q).reverseMapping
      = ((shuffleArray draws q.options).map Prod.fst).zip
          (LETTERS.take (shuffleArray draws q.options).length) :=
  zip_map_orig_new _ _

theorem prepare_shuffledOptions_keys (draws : Nat → Nat) (q : Question) :
    (prepareQuestion draws q).shuffledOptions.map Prod.fst
      = LETTERS.take (shuffleArray draws q.options).length := by
  have h1 : (prepareQuestion draws q).shuffledOptions.map Prod.fst
      = ((shuffleArray draws q.options).zip
          (LETTERS.take (shuffleArray draws q.options).length)).map Prod.snd :=
    zip_map_keys_eq_snd _ _
  rw [h1, List.map_snd_zip]
  simp only [List.length_take]
  have h6 : LETTERS.length = 6 := rfl
  omega

/-- C2: for every letter that is a key of the shuffled options,
`optionMapping` sends it to an original letter and `reverseMapping` sends
that original letter back, so translating any selection of shuffled keys
forward and back is the identity. -/
theorem C2_mapping_roundtrip (draws : Nat → Nat) (q : Question)
    (hnodup : (q.options.map Prod.fst).Nodup) (hlen : q.options.length ≤ 6) :
    (∀ c ∈ (prepareQuestion draws q).shuffledOptions.map Prod.fst,
      ∃ o, List.lookup c (prepareQuestion draws q).optionMapping = some o ∧
           List.lookup o (prepareQuestion draws q).reverseMapping = some c) ∧
    (∀ sel : List Char,
      (∀ c ∈ sel, c ∈ (prepareQuestion draws q).shuffledOptions.map Prod.fst) →
      sel.map (fun c =>
        ((List.lookup c (prepareQuestion draws q).optionMapping).bind
          fun o => List.lookup o (prepareQuestion draws q).reverseMapping).getD c)
        = sel) := by
  have hperm := shuffleArray_perm draws q.options
  have hlenq : (shuffleArray draws q.options).length = q.options.length := hperm.length_eq
  have horigs_nodup : ((shuffleArray draws q.options).map Prod.fst).Nodup :=
    (hperm.map Prod.fst).nodup_iff.mpr hnodup
  have hnews_nodup : (LETTERS.take (shuffleArray draws q.options).length).Nodup :=
    (List.take_sublist _ _).nodup (by decide : LETTERS.Nodup)
  have hlens : (LETTERS.take (shuffleArray draws q.options).length).length
      = ((shuffleArray draws q.options).map Prod.fst).length := by
    simp only [List.length_take, List.length_map]
    have h6 : LETTERS.length = 6 := rfl
    omega
  have hmain : ∀ c ∈ (prepareQuestion draws q).shuffledOptions.map Prod.fst,
      ∃ o, List.lookup c (prepareQuestion draws q).optionMapping = some o ∧
           List.lookup o (prepareQuestion draws q).reverseMapping = some c := by
    intro c hc
    rw [prepare_shuffledOptions_keys] at hc
    obtain ⟨o, h1, h2⟩ := lookup_zip_inverse _ _ hnews_nodup horigs_nodup hlens c hc
    refine ⟨o, ?_, ?_⟩
    · rw [prepare_optionMapping]; exact h1
    · rw [prepare_reverseMapping]; exact h2
  refine ⟨hmain, ?_⟩
  intro sel hsel
  have hpt : ∀ c ∈ sel,
      ((List.lookup c (prepareQuestion draws q).optionMapping).bind
        fun o => List.lookup o (prepareQuestion draws q).reverseMapping).getD c = c := by
    intro c hc
    obtain ⟨o, h1, h2⟩ := hmain c (hsel c hc)
    rw [h1]
    simp [h2]
  calc sel.map (fun c =>
        ((List.lookup c (prepareQuestion draws q).optionMapping).bind
          fun o => List.lookup o (prepareQuestion draws q).reverseMapping).getD c)
      = sel.map id := List.map_congr_left hpt
    _ = sel := List.map_id sel

theorem C2_witness :
    ∃ o, List.lookup 'A' (prepareQuestion (fun _ => 0) sampleQ).optionMapping = some o ∧
         List.lookup o (prepareQuestion (fun _ => 0) sampleQ).reverseMapping = some 'A' :=
  (C2_mapping_roundtrip (fun _ => 0) sampleQ (by decide) (by decide)).1 'A' (by decide)

theorem max_one_eq {s : Nat} (h : 1 ≤ s) : Nat.max 1 s = s := by
  simp only [Nat.max_def]
  split <;> omega

theorem min_eq_right_of_le {a b : Nat} (h : b ≤ a) : Nat.min a b = b := by
  simp only [Nat.min_def]
  split <;> omega

theorem min_max_comm_helper (r n : Nat) (h : 1 ≤ r) :
    Nat.min (Nat.max 1 r) (Nat.max 1 n) = Nat.min (Nat.max 1 n) r := by
  simp only [Nat.max_def, Nat.min_def]
  repeat' split
  all_goals omega

theorem min_min_absorb (b r : Nat) :
    Nat.min (Nat.min (Nat.max 1 b) r) r = Nat.min (Nat.max 1 b) r := by
  simp only [Nat.max_def, Nat.min_def]
  repeat' split
  all_goals omega

theorem min_min_absorb2 (b r : Nat) :
    Nat.min (Nat.min r (Nat.max 1 b)) r = Nat.min (Nat.max 1 b) r := by
  simp only [Nat.max_def, Nat.min_def]
  repeat' split
  all_goals omega

theorem count_pos_helper (b r : Nat) (h : 1 ≤ r) : 0 < Nat.min (Nat.max 1 b) r := by
  simp only [Nat.max_def, Nat.min_def]
  repeat' split
  all_goals omega

/-- C3: in sequential mode on a non-empty bank, with the start number in
its valid range, the selected run is the consecutive slice of the
ascending-sorted bank beginning at the first index whose number reaches
`startQuestion` (0 when none does), its length is exactly the requested
count clamped below by 1 and above by the questions remaining from that
index, and when some question reaches the threshold the first selected
question does too. -/
theorem C3_sequential_slice (questions : List Question) (numQuestions startQuestion : Nat)
    (hne : questions ≠ [])
    (hlo : 1 ≤ startQuestion)
    (hhi : startQuestion ≤ Nat.max 1 (maxQuestionNumber questions)) :
    startQuizSequential questions numQuestions startQuestion
        = ((sortedQuestions questions).drop
            (sequentialStartIdx (sortedQuestions questions) startQuestion)).take
            (Nat.min (Nat.max 1 numQuestions)
              ((sortedQuestions questions).length
                - sequentialStartIdx (sortedQuestions questions) startQuestion)) ∧
    (startQuizSequential questions numQuestions startQuestion).length
        = Nat.min (Nat.max 1 numQuestions)
            ((sortedQuestions questions).length
              - sequentialStartIdx (sortedQuestions questions) startQuestion) ∧
    ((∃ q ∈ questions, startQuestion ≤ q.number) →
      ∀ q0, (startQuizSequential questions numQuestions startQuestion).head? = some q0 →
        startQuestion ≤ q0.number) ∧
    List.Perm (sortedQuestions questions) questions ∧
    List.Pairwise (fun a b => a.number ≤ b.number) (sortedQuestions questions) := by
  have hlen0 : questions.length ≠ 0 := fun h => hne (List.length_eq_zero.mp h)
  have hsortlen : (sortedQuestions questions).length = questions.length :=
    List.length_insertionSort _ _
  have hstart : clamp (jsOrOne startQuestion) 1 (Nat.max 1 (maxQuestionNumber questions))
      = startQuestion := by
    rw [clamp_jsOrOne, max_one_eq hlo, min_eq_right_of_le hhi]
  have hidx : sequentialStartIdx (sortedQuestions questions) startQuestion
      < (sortedQuestions questions).length := by
    unfold sequentialStartIdx
    cases hfi : (sortedQuestions questions).findIdx?
        (fun q => decide (startQuestion ≤ q.number)) with
    | none =>
      show 0 < (sortedQuestions questions).length
      omega
    | some i => exact (List.findIdx?_eq_some_iff_findIdx_eq.mp hfi).1
  have hcount : clamp (jsOrOne numQuestions) 1
        (Nat.max 1 ((sortedQuestions questions).length
          - sequentialStartIdx (sortedQuestions questions) startQuestion))
      = Nat.min (Nat.max 1 numQuestions)
          ((sortedQuestions questions).length
            - sequentialStartIdx (sortedQuestions questions) startQuestion) := by
    have hR : 1 ≤ (sortedQuestions questions).length
        - sequentialStartIdx (sortedQuestions questions) startQuestion := by omega
    rw [clamp_jsOrOne, min_max_comm_helper _ _ hR]
  have hunfold : startQuizSequential questions numQuestions startQuestion
      = ((sortedQuestions questions).drop
          (sequentialStartIdx (sortedQuestions questions) startQuestion)).take
          (Nat.min (Nat.max 1 numQuestions)
            ((sortedQuestions questions).length
              - sequentialStartIdx (sortedQuestions questions) startQuestion)) := by
    simp only [startQuizSequential]
    rw [if_neg hlen0, hstart, hcount]
  refine ⟨hunfold, ?_, ?_, ?_, ?_⟩
  · rw [hunfold, List.length_take, List.length_drop]
    exact min_min_absorb _ _
  · intro hex q0 hq0
    have hexs : ∃ x ∈ sortedQuestions questions,
        (fun q => decide (startQuestion ≤ q.number)) x = true := by
      obtain ⟨qq, hqq, hle⟩ := hex
      exact ⟨qq, (List.perm_insertionSort _ questions).mem_iff.mpr hqq, decide_eq_true hle⟩
    have hfi := List.findIdx?_eq_some_of_exists hexs
    obtain ⟨hlt, hp, _⟩ := List.findIdx?_eq_some_iff_getElem.mp hfi
    have hidx_eq : sequentialStartIdx (sortedQuestions questions) startQuestion
        = (sortedQuestions questions).findIdx fun q => decide (startQuestion ≤ q.number) := by
      unfold sequentialStartIdx
      rw [hfi]
    have hR : 1 ≤ (sortedQuestions questions).length
        - sequentialStartIdx (sortedQuestions questions) startQuestion := by omega
    have hcpos := count_pos_helper numQuestions
      ((sortedQuestions questions).length
        - sequentialStartIdx (sortedQuestions questions) startQuestion) hR
    rw [hunfold] at hq0
    rw [List.head?_take] at hq0
    rw [if_neg (by omega)] at hq0
    rw [List.head?_drop] at hq0
    rw [hidx_eq] at hq0
    rw [List.getElem?_eq_getElem hlt] at hq0
    have : q0 = (sortedQuestions questions)[(sortedQuestions questions).findIdx
        fun q => decide (startQuestion ≤ q.number)] := (Option.some.inj hq0).symm
    rw [this]
    exact of_decide_eq_true hp
  · exact List.perm_insertionSort _ questions
  · have : IsTotal Question (fun a b => a.number ≤ b.number) :=
      ⟨fun a b => Nat.le_total a.number b.number⟩
    have : IsTrans Question (fun a b => a.number ≤ b.number) :=
      ⟨fun a b c hab hbc => Nat.le_trans hab hbc⟩
    exact List.sorted_insertionSort _ questions

def witnessBank : List Question :=
  [{ number := 3, text := "c", options := [('A', "")], answer := "A", images := [] },
   { number := 1, text := "a", options := [('A', "")], answer := "A", images := [] },
   { number := 2, text := "b", options := [('A', "")], answer := "A", images := [] }]

theorem C3_witness :
    (startQuizSequential witnessBank 2 2).length
      = Nat.min (Nat.max 1 2)
          ((sortedQuestions witnessBank).length
            - sequentialStartIdx (sortedQuestions witnessBank) 2) :=
  (C3_sequential_slice witnessBank 2 2 (by decide) (by decide) (by decide)).2.1

/-- C8: in random mode on a non-empty bank, for every draw stream the
selected run has exactly `clamp(numQuestions, 1, total)` elements and is a
prefix of a permutation of the full bank. -/
theorem C8_random_permutation_take (draws : Nat → Nat) (questions : List Question)
    (numQuestions : Nat) (h : 0 < questions.length) :
    (startQuizRandom draws questions numQuestions).length
        = Nat.min (Nat.max 1 numQuestions) questions.length ∧
    ∃ shuffled, List.Perm shuffled questions ∧
      startQuizRandom draws questions numQuestions
        = shuffled.take (clamp (jsOrOne numQuestions) 1 questions.length) := by
  have hlen0 : questions.length ≠ 0 := by omega
  constructor
  · unfold startQuizRandom sampleQuestions
    rw [if_neg hlen0, List.length_take, (shuffleArray_perm draws questions).length_eq,
      clamp_jsOrOne]
    exact min_min_absorb2 _ _
  · refine ⟨shuffleArray draws questions, shuffleArray_perm draws questions, ?_⟩
    unfold startQuizRandom sampleQuestions
    rw [if_neg hlen0]

theorem C8_witness :
    (startQuizRandom (fun i => i + 1) witnessBank 0).length
      = Nat.min (Nat.max 1 0) witnessBank.length :=
  (C8_random_permutation_take (fun i => i + 1) witnessBank 0 (by decide)).1

/-- C4: when the current question is unanswered and the submitted
selection is empty, or has the wrong count for a multi-choice question,
`submitAnswer` only sets a nonempty validation warning: no answer record
is created and score and wrong-answer log are unchanged. -/
theorem C4_validation_rejection (now : String) (s : RunState) (q0 : PreparedQuestion)
    (hq : s.quizQuestions[s.currentIndex]? = some q0)
    (hnew : List.lookup s.currentIndex s.answersState = none)
    (hrej : sortLetters ((List.lookup s.currentIndex s.draftSelections).getD []) = [] ∨
        (q0.isMultipleChoice = true ∧
          (sortLetters ((List.lookup s.currentIndex s.draftSelections).getD [])).length
            ≠ q0.answer.length)) :
    (submitAnswer now s).answersState = s.answersState ∧
    (submitAnswer now s).score = s.score ∧
    (submitAnswer now s).wrongAnswers = s.wrongAnswers ∧
    (submitAnswer now s).warning ≠ "" := by
  simp only [submitAnswer, hq, hnew]
  by_cases hlen : (sortLetters ((List.lookup s.currentIndex s.draftSelections).getD [])).length
      = 0
  · rw [if_pos hlen]
    exact ⟨rfl, rfl, rfl, (by decide : selectEmptyWarning ≠ "")⟩
  · rw [if_neg hlen]
    rcases hrej with hempty | ⟨hm, hc⟩
    · exact absurd (by rw [hempty]; rfl) hlen
    · rw [if_pos ⟨hm, hc⟩]
      exact ⟨rfl, rfl, rfl, multiCountWarning_ne_empty _ _⟩

def emptyDraftState : RunState :=
  { quizQuestions := [samplePrepared], currentIndex := 0, score := 0,
    answersState := [], draftSelections := [], warning := "", wrongAnswers := [],
    showFinalModal := false }

theorem C4_witness :
    (submitAnswer "t" emptyDraftState).answersState = emptyDraftState.answersState ∧
    (submitAnswer "t" emptyDraftState).score = emptyDraftState.score ∧
    (submitAnswer "t" emptyDraftState).wrongAnswers = emptyDraftState.wrongAnswers ∧
    (submitAnswer "t" emptyDraftState).warning ≠ "" :=
  C4_validation_rejection "t" emptyDraftState samplePrepared (by rfl) (by rfl)
    (Or.inl (by rfl))

/-! Helper lemmas for the score invariant. -/

theorem changeOption_fields (letter : Char) (checked : Bool) (s : RunState) :
    (changeOption letter checked s).score = s.score ∧
    (changeOption letter checked s).answersState = s.answersState := by
  unfold changeOption
  repeat' split
  all_goals exact ⟨rfl, rfl⟩

theorem countCorrect_append (l : List (Nat × AnswerRecord)) (i : Nat) (r : AnswerRecord) :
    countCorrect (l ++ [(i, r)]) = countCorrect l + if r.isCorrect then 1 else 0 := by
  unfold countCorrect
  rw [List.filter_append, List.length_append]
  by_cases hr : r.isCorrect = true <;> simp [hr]

theorem submitAnswer_preserves_invariant (now : String) (s : RunState)
    (ih : s.score = countCorrect s.answersState) :
    (submitAnswer now s).score = countCorrect (submitAnswer now s).answersState := by
  cases hq : s.quizQuestions[s.currentIndex]? with
  | none =>
    simp only [submitAnswer, hq]
    exact ih
  | some q =>
    cases hl : List.lookup s.currentIndex s.answersState with
    | some r =>
      simp only [submitAnswer, hq, hl]
      exact ih
    | none =>
      simp only [submitAnswer, hq, hl]
      by_cases h1 : (sortLetters
          ((List.lookup s.currentIndex s.draftSelections).getD [])).length = 0
      · rw [if_pos h1]
        exact ih
      · rw [if_neg h1]
        by_cases h2 : (q.isMultipleChoice ∧
            (sortLetters ((List.lookup s.currentIndex s.draftSelections).getD [])).length
              ≠ q.answer.length)
        · rw [if_pos h2]
          exact ih
        · rw [if_neg h2]
          by_cases hc : (String.mk (sortLetters
                ((List.lookup s.currentIndex s.draftSelections).getD []))
              == q.shuffledAnswer) = true
          · rw [if_pos hc]
            show s.score + 1 = countCorrect (assocSet s.answersState s.currentIndex _)
            rw [assocSet_eq_append _ hl, countCorrect_append]
            rw [ih]
            simp [hc]
          · rw [if_neg hc]
            show s.score = countCorrect (assocSet s.answersState s.currentIndex _)
            rw [assocSet_eq_append _ hl, countCorrect_append]
            rw [ih]
            have : (String.mk (sortLetters
                ((List.lookup s.currentIndex s.draftSelections).getD []))
              == q.shuffledAnswer) = false := by
              cases hcc : (String.mk (sortLetters
                  ((List.lookup s.currentIndex s.draftSelections).getD []))
                == q.shuffledAnswer) with
              | true => exact absurd hcc hc
              | false => rfl
            simp [this]

/-- C10: starting a run resets the score and the answer records to zero,
and throughout every run — under all submissions, draft changes and
navigation — the score equals the number of answer records whose
`isCorrect` flag is true. -/
theorem C10_score_counts_correct :
    (∀ (prepared : List PreparedQuestion) (s : RunState),
        (startRun prepared s).score = 0 ∧ (startRun prepared s).answersState = []) ∧
    (∀ s : RunState, ReachableRun s → s.score = countCorrect s.answersState) := by
  constructor
  · intro prepared s
    exact ⟨rfl, rfl⟩
  · intro s h
    induction h with
    | start prepared s0 => rfl
    | submit now s0 hr ih => exact submitAnswer_preserves_invariant now s0 ih
    | change letter checked s0 hr ih =>
      rw [(changeOption_fields letter checked s0).1,
        (changeOption_fields letter checked s0).2]
      exact ih
    | prev s0 hr ih => exact ih
    | next s0 hr ih => exact ih
    | auto s0 hr ih => exact ih

theorem C10_witness :
    (startRun [samplePrepared] emptyDraftState).score
      = countCorrect (startRun [samplePrepared] emptyDraftState).answersState :=
  C10_score_counts_correct.2 _ (ReachableRun.start [samplePrepared] emptyDraftState)

/-- C9: if a multi-choice question's answer contains a letter that is not
an option key, preparation silently drops it, so `shuffledAnswer` is
strictly shorter than `answer`; and since an accepted submission must
select exactly `answer.length` letters, every accepted submission is
recorded as incorrect. -/
theorem C9_unanswerable_question (draws : Nat → Nat) (q : Question)
    (hmulti : 1 < q.answer.length)
    (hbad : ∃ c ∈ q.answer.data, c ∉ q.options.map Prod.fst) :
    (prepareQuestion draws q).shuffledAnswer.length < q.answer.length ∧
    (∀ (now : String) (s : RunState),
      s.quizQuestions[s.currentIndex]? = some (prepareQuestion draws q) →
      List.lookup s.currentIndex s.answersState = none →
      (sortLetters ((List.lookup s.currentIndex s.draftSelections).getD [])).length
        = q.answer.length →
      ∃ rec, List.lookup s.currentIndex (submitAnswer now s).answersState = some rec ∧
        rec.isCorrect = false) := by
  obtain ⟨c, hc, hcnot⟩ := hbad
  have hperm := shuffleArray_perm draws q.options
  have hcnone : List.lookup c (prepareQuestion draws q).reverseMapping = none := by
    apply lookup_eq_none_of_not_mem_keys
    rw [prepare_reverseMapping]
    intro hmem
    obtain ⟨p, hp, hpe⟩ := List.mem_map.mp hmem
    have hpz := List.of_mem_zip hp
    exact hcnot ((hperm.map Prod.fst).mem_iff.mp (hpe ▸ hpz.1))
  have hshuf : (prepareQuestion draws q).shuffledAnswer
      = String.mk (sortLetters (q.answer.data.filterMap fun letter =>
          List.lookup letter (prepareQuestion draws q).reverseMapping)) := rfl
  have hshort : (prepareQuestion draws q).shuffledAnswer.length < q.answer.length := by
    rw [hshuf, String.length_mk]
    unfold sortLetters
    rw [List.length_insertionSort]
    exact length_filterMap_lt hc hcnone
  refine ⟨hshort, ?_⟩
  intro now s hq' hnew hsel
  simp only [submitAnswer, hq', hnew]
  have hlen0 : ¬ (sortLetters
      ((List.lookup s.currentIndex s.draftSelections).getD [])).length = 0 := by
    rw [hsel]
    omega
  rw [if_neg hlen0]
  have hcond : ¬ ((prepareQuestion draws q).isMultipleChoice = true ∧
      (sortLetters ((List.lookup s.currentIndex s.draftSelections).getD [])).length
        ≠ (prepareQuestion draws q).answer.length) := by
    intro hpair
    exact hpair.2 hsel
  rw [if_neg hcond]
  have hcfalse : (String.mk (sortLetters
        ((List.lookup s.currentIndex s.draftSelections).getD []))
      == (prepareQuestion draws q).shuffledAnswer) = false := by
    rw [beq_eq_false_iff_ne]
    intro heq
    have hlen1 := congrArg String.length heq
    rw [String.length_mk] at hlen1
    rw [hsel] at hlen1
    omega
  have hcneg : ¬ ((String.mk (sortLetters
        ((List.lookup s.currentIndex s.draftSelections).getD []))
      == (prepareQuestion draws q).shuffledAnswer) = true) := by
    rw [hcfalse]
    exact Bool.false_ne_true
  rw [if_neg hcneg]
  exact ⟨_, lookup_assocSet_self _ _ _, hcfalse⟩

/-- A question whose answer AC mentions the non-key letter C. -/
def badQ : Question :=
  { number := 2, text := "q", options := [('A', "x"), ('B', "y")], answer := "AC",
    images := [] }

def badState : RunState :=
  { quizQuestions := [prepareQuestion (fun _ => 0) badQ], currentIndex := 0, score := 0,
    answersState := [], draftSelections := [(0, ['A', 'B'])], warning := "",
    wrongAnswers := [], showFinalModal := false }

theorem C9_witness :
    ∃ rec, List.lookup 0 (submitAnswer "t" badState).answersState = some rec ∧
      rec.isCorrect = false :=
  (C9_unanswerable_question (fun _ => 0) badQ (by decide) (by decide)).2 "t" badState
    (by rfl) (by rfl) (by rfl)

/-! The parser only ever stores option keys that are upper-case letters
A–F, and keeps them distinct, so every parsed question satisfies the
hypotheses of the mapping round-trip theorems. -/

/-- Well-formed option maps: distinct keys, all in the code-point range
of A–F. -/
def OptionsWF (l : List (Char × String)) : Prop :=
  (l.map Prod.fst).Nodup ∧ ∀ k ∈ l.map Prod.fst, 65 ≤ k.toNat ∧ k.toNat ≤ 70

theorem char_le_iff_toNat {a b : Char} : a ≤ b ↔ a.toNat ≤ b.toNat := by
  rw [Char.le_def, UInt32.le_def, BitVec.le_def]
  exact Iff.rfl

theorem toUpper_toNat_bounds {c : Char} (h : isAnswerLetterChar c = true) :
    65 ≤ c.toUpper.toNat ∧ c.toUpper.toNat ≤ 70 := by
  unfold isAnswerLetterChar at h
  simp only [Bool.or_eq_true, Bool.and_eq_true, decide_eq_true_eq] at h
  unfold Char.toUpper
  rcases h with ⟨h1, h2⟩ | ⟨h1, h2⟩
  · rw [char_le_iff_toNat] at h1 h2
    have h1n : (65 : Nat) ≤ c.toNat := h1
    have h2n : c.toNat ≤ 70 := h2
    rw [if_neg (by omega)]
    exact ⟨h1n, h2n⟩
  · rw [char_le_iff_toNat] at h1 h2
    have h1n : (97 : Nat) ≤ c.toNat := h1
    have h2n : c.toNat ≤ 102 := h2
    rw [if_pos (by omega)]
    have hv : Nat.isValidChar (c.toNat - 32) := Or.inl (by omega)
    rw [Char.ofNat, dif_pos hv]
    have he : (Char.ofNatAux (c.toNat - 32) hv).toNat = c.toNat - 32 := rfl
    rw [he]
    omega

theorem objSet_keys (l : List (Char × String)) (k : Char) (v : String) :
    (objSet l k v).map Prod.fst
      = if k ∈ l.map Prod.fst then l.map Prod.fst else l.map Prod.fst ++ [k] := by
  induction l with
  | nil => simp [objSet]
  | cons p t ih =>
    unfold objSet
    by_cases hk : p.1 = k
    · simp [hk]
    · have hk2 : ¬ k = p.1 := fun hc => hk hc.symm
      by_cases hmem : k ∈ t.map Prod.fst
      · simp [hk, hk2, hmem, ih]
      · simp [hk, hk2, hmem, ih]

theorem optionsWF_objSet {l : List (Char × String)} {k : Char} (v : String)
    (hw : OptionsWF l) (hk : 65 ≤ k.toNat ∧ k.toNat ≤ 70) : OptionsWF (objSet l k v) := by
  obtain ⟨hnd, hbd⟩ := hw
  constructor
  · rw [objSet_keys]
    by_cases hmem : k ∈ l.map Prod.fst
    · rwa [if_pos hmem]
    · rw [if_neg hmem, List.nodup_append]
      exact ⟨hnd, List.nodup_singleton _, by
        intro a ha hb
        rcases List.mem_singleton.mp hb with rfl
        exact hmem ha⟩
  · rw [objSet_keys]
    by_cases hmem : k ∈ l.map Prod.fst
    · rw [if_pos hmem]
      exact hbd
    · rw [if_neg hmem]
      intro k0 hk0
      rcases List.mem_append.mp hk0 with h | h
      · exact hbd k0 h
      · rcases List.mem_singleton.mp h with rfl
        exact hk

theorem char_toNat_injective : Function.Injective Char.toNat := by
  intro a b h
  exact Char.eq_of_val_eq (UInt32.eq_of_toBitVec_eq (BitVec.eq_of_toNat_eq h))

theorem optionsWF_length {l : List (Char × String)} (hw : OptionsWF l) : l.length ≤ 6 := by
  obtain ⟨hnd, hbd⟩ := hw
  have hlen : l.length = (l.map Prod.fst).length := (List.length_map _ _).symm
  rw [hlen]
  have hmapnd : ((l.map Prod.fst).map Char.toNat).Nodup := hnd.map char_toNat_injective
  have hsub : ((l.map Prod.fst).map Char.toNat).toFinset ⊆ Finset.Icc 65 70 := by
    intro x hx
    obtain ⟨k, hk, rfl⟩ := List.mem_map.mp (List.mem_toFinset.mp hx)
    exact Finset.mem_Icc.mpr ⟨(hbd k hk).1, (hbd k hk).2⟩
  have hcard := Finset.card_le_card hsub
  rw [List.toFinset_card_of_nodup hmapnd, List.length_map] at hcard
  rw [Nat.card_Icc] at hcard
  omega

theorem optionMatch_letter {s : List Char} {letter : Char} {rest : List Char}
    (h : optionMatch s = some (letter, rest)) : isAnswerLetterChar letter = true := by
  cases s with
  | nil => simp [optionMatch] at h
  | cons c s1 =>
    cases s1 with
    | nil => simp [optionMatch] at h
    | cons c2 t =>
      simp only [optionMatch] at h
      by_cases h1 : isAnswerLetterChar c = true
      · by_cases h2 : isSepChar c2 = true
        · by_cases hlt : (List.dropWhile isJsWhitespace t).any isLineTerm = true
          · simp [h1, h2, hlt] at h
          · simp [h1, h2, hlt] at h
            rw [← h.1]
            exact h1
        · simp [h1, h2] at h
      · simp [h1] at h

theorem flush_options_wf {st : PState} {q : Question} (hq : q ∈ flushCurrentQuestion st)
    (hw : OptionsWF st.currentOptions) :
    (q.options.map Prod.fst).Nodup ∧ q.options.length ≤ 6 := by
  unfold flushCurrentQuestion at hq
  split at hq
  · rename_i n a hn ha
    split at hq
    · rcases List.mem_singleton.mp hq with rfl
      exact ⟨hw.1, optionsWF_length hw⟩
    · cases hq
  · cases hq

theorem applyBlock_options_wf {qs : List Question} {st : PState} {b : Block}
    (hw : OptionsWF st.currentOptions) : OptionsWF (applyBlock qs st b).2.currentOptions := by
  simp only [applyBlock]
  split
  · exact ⟨List.nodup_nil, by intro k hk; cases hk⟩
  · split
    · rename_i letter rest hom
      exact optionsWF_objSet _ hw (toUpper_toNat_bounds (optionMatch_letter hom))
    · split
      · exact hw
      · split
        · exact hw
        · split
          · exact hw
          · exact hw

theorem parse_fold_options_wf : ∀ (blocks : List Block) (qs : List Question) (st : PState),
    (∀ q ∈ qs, (q.options.map Prod.fst).Nodup ∧ q.options.length ≤ 6) →
    OptionsWF st.currentOptions →
    ∀ q ∈ (blocks.foldl (fun acc b => applyBlock acc.1 acc.2 b) (qs, st)).1 ++
        flushCurrentQuestion (blocks.foldl (fun acc b => applyBlock acc.1 acc.2 b) (qs, st)).2,
      (q.options.map Prod.fst).Nodup ∧ q.options.length ≤ 6 := by
  intro blocks
  induction blocks with
  | nil =>
    intro qs st hqs hw q hq
    rcases List.mem_append.mp hq with h | h
    · exact hqs q h
    · exact flush_options_wf h hw
  | cons b bs ih =>
    intro qs st hqs hw q hq
    rw [List.foldl_cons] at hq
    refine ih (applyBlock qs st b).1 (applyBlock qs st b).2 ?_ (applyBlock_options_wf hw)
      q (by simpa using hq)
    intro q0 hq0
    rcases applyBlock_fst hq0 with h | h
    · exact hqs q0 h
    · exact flush_options_wf h hw

/-- Every question emitted by the parser has pairwise-distinct option
keys and at most six options, justifying the hypotheses of the mapping
round-trip and dropped-letter theorems for all real banks. -/
theorem parse_options_sound (blocks : List Block) :
    ∀ q ∈ parseQuestionsFromBlocks blocks,
      (q.options.map Prod.fst).Nodup ∧ q.options.length ≤ 6 := by
  intro q hq
  have h0 : ∀ q0 ∈ ([] : List Question),
      (q0.options.map Prod.fst).Nodup ∧ q0.options.length ≤ 6 := by
    intro q0 h
    cases h
  exact parse_fold_options_wf blocks [] initPState h0
    ⟨List.nodup_nil, by intro k hk; cases hk⟩ q hq

end Quiz
